import Mathlib

/-!
# Verification of the vanilla-RNN training engine (Q1) and the sampler (Q3)

Shallow embedding of the repository's NumPy notebook `Q1.ipynb`
(`softmax`, `forward`, `backward`, `train_step`) and of the PyTorch
sampler `predict` from `Q3.ipynb`.

Modelling choices:
* real scalars are modelled by `ℚ` so that every definition is executable;
* the external numerical primitives `np.tanh`, `np.exp`, `np.log` (and
  torch's `exp` inside `softmax`) are abstracted as explicit function
  parameters `tanh exp log : ℚ → ℚ`;
* a column vector of shape `(n, 1)` is a `List ℚ`, a matrix is a
  `List (List ℚ)` (row major, as in NumPy);
* `np.dot(M, x)` raises a `ValueError` when the length of `x` disagrees
  with the number of columns of `M`; `forward` models this dimension
  check (the spec's `ShapeError`) with an `Except` result.  `input_dim`
  is the column count of the input-to-hidden matrix `U`;
* the per-step randomness of `torch.multinomial` in `predict` is
  abstracted as a sampling function `multinomial : List ℚ → ℕ`.
-/

namespace RNN

/-- Column vectors, NumPy shape `(n, 1)`. -/
abbrev Vec := List ℚ

/-- Row-major matrices, NumPy shape `(m, n)`. -/
abbrev Mat := List (List ℚ)

/-- Elementwise vector addition (`+` on equal-shape NumPy arrays). -/
def vAdd (u v : Vec) : Vec := List.zipWith (· + ·) u v

/-- Elementwise vector subtraction. -/
def vSub (u v : Vec) : Vec := List.zipWith (· - ·) u v

/-- Elementwise matrix addition. -/
def matAdd (A B : Mat) : Mat := List.zipWith vAdd A B

/-- Elementwise matrix subtraction. -/
def matSub (A B : Mat) : Mat := List.zipWith vSub A B

/-- Scalar times vector. -/
def smulVec (r : ℚ) (v : Vec) : Vec := v.map (fun x => r * x)

/-- Scalar times matrix. -/
def smulMat (r : ℚ) (A : Mat) : Mat := A.map (fun row => row.map (fun x => r * x))

/-- Dot product of a matrix row with a vector. -/
def dotRow (r v : Vec) : ℚ := (List.zipWith (· * ·) r v).sum

/-- `np.dot(M, x)` for a matrix `M` and a column vector `x`
(shape checking is done at the call sites that model NumPy's check). -/
def matVec (M : Mat) (v : Vec) : Vec := M.map (fun r => dotRow r v)

/-- `np.dot(u, v.T)`: outer product of two column vectors. -/
def outer (u v : Vec) : Mat := u.map (fun ui => v.map (fun vj => ui * vj))

/-- Number of columns of a matrix: NumPy `M.shape[1]` (rows are
rectangular for the arrays the notebook builds). -/
def cols (M : Mat) : ℕ := (M.headD []).length

/-- Column `j` of a matrix. -/
def getCol (M : Mat) (j : ℕ) : Vec := M.map (fun r => r.getD j 0)

/-- Matrix transpose (`M.T`) of a rectangular row-major matrix. -/
def transpose (M : Mat) : Mat := (List.range (cols M)).map (getCol M)

/-- `np.zeros_like` for a vector. -/
def zerosLikeV (v : Vec) : Vec := v.map (fun _ => 0)

/-- `np.zeros_like` for a matrix. -/
def zerosLikeM (A : Mat) : Mat := A.map (fun row => row.map (fun _ => 0))

/-- `np.max` over the entries of a (nonempty) vector. -/
def maxList : Vec → ℚ
  | [] => 0
  | x :: xs => xs.foldl max x

/-- `softmax(x)` from `Q1.ipynb`: subtract the maximum for numerical
stability, exponentiate, divide by the sum of the exponentials. -/
def softmax (exp : ℚ → ℚ) (x : Vec) : Vec :=
  let exp_x := x.map (fun xi => exp (xi - maxList x))
  exp_x.map (fun ei => ei / exp_x.sum)

/-- The dimension-mismatch failure NumPy raises in `np.dot` when an
input vector's length disagrees with `input_dim` (the spec's
`ShapeError`). -/
inductive ShapeError : Type
  | dimMismatch : ℕ → ℕ → ShapeError
deriving DecidableEq, Repr

/-- One time step of `forward`:
`h' = tanh(U·x + W·h + b)`, `y = softmax(V·h' + c)`. -/
def stepHidden (tanh : ℚ → ℚ) (U W : Mat) (b : Vec) (h x : Vec) : Vec :=
  (vAdd (vAdd (matVec U x) (matVec W h)) b).map tanh

/-- Output at one time step: `softmax(V·h' + c)`. -/
def stepOut (exp : ℚ → ℚ) (V : Mat) (c : Vec) (h' : Vec) : Vec :=
  softmax exp (vAdd (matVec V h') c)

/-- The `for t in range(T)` loop of `forward`, carrying the current
hidden state.  Returns the outputs and the hidden states `h[1..T]`
produced by the loop; errors when `np.dot(U, inputs[t])` would raise
(input length different from `U`'s column count). -/
def forwardAux (tanh exp : ℚ → ℚ) (U W V : Mat) (b c : Vec) :
    Vec → List Vec → Except ShapeError (List Vec × List Vec)
  | _, [] => .ok ([], [])
  | h, x :: rest =>
      if x.length = cols U then
        let h' := stepHidden tanh U W b h x
        let y := stepOut exp V c h'
        match forwardAux tanh exp U W V b c h' rest with
        | .ok (outs, hs) => .ok (y :: outs, h' :: hs)
        | .error e => .error e
      else
        .error (.dimMismatch x.length (cols U))

/-- `forward(inputs, U, W, V, b, c)` from `Q1.ipynb`.  `hidden_size` is
the notebook's global used to build the all-zero initial hidden state
`hidden_states[0]`.  Returns `(outputs, hidden_states)` with
`hidden_states` of length `T + 1`. -/
def forward (hidden_size : ℕ) (tanh exp : ℚ → ℚ) (inputs : List Vec)
    (U W V : Mat) (b c : Vec) : Except ShapeError (List Vec × List Vec) :=
  match forwardAux tanh exp U W V b c (List.replicate hidden_size 0) inputs with
  | .ok (outs, hs) => .ok (outs, List.replicate hidden_size 0 :: hs)
  | .error e => .error e

/-- The hidden states `h[1..T]` produced by the `forward` loop from the
current hidden state, ignoring the shape check (used to characterise
the successful runs of `forwardAux`). -/
def hiddenList (tanh : ℚ → ℚ) (U W : Mat) (b : Vec) : Vec → List Vec → List Vec
  | _, [] => []
  | h, x :: rest =>
      let h' := stepHidden tanh U W b h x
      h' :: hiddenList tanh U W b h' rest

/-- The one-hot target vector of `backward`:
`target = np.zeros_like(outputs[t]); target[targets[t]] = 1`.
(The in-range precondition `i < v.length` is NumPy's; out-of-range
writes raise and are excluded by the claims' hypotheses.) -/
def oneHotLike (v : Vec) (i : ℕ) : Vec :=
  (List.range v.length).map (fun j => if j = i then (1 : ℚ) else 0)

/-- The local variables of one `backward` call, together with the
parameter tensors it reads: the weights `U W V b c` (never assigned in
the loop body) and the gradient accumulators plus the future
hidden-state gradient carrier `dh_next` (the only names the loop body
assigns). -/
structure BPTTState where
  U : Mat
  W : Mat
  V : Mat
  b : Vec
  c : Vec
  dU : Mat
  dW : Mat
  dV : Mat
  db : Vec
  dc : Vec
  dh_next : Vec

/-- The body of `for t in reversed(range(T))` in `backward`, acting on
the local-variable state: every `+=` updates a gradient accumulator,
`dh_next` is rebound, and the parameters are only read. -/
def bpttStep (inputs outputs hidden_states : List Vec) (targets : List ℕ)
    (t : ℕ) (s : BPTTState) : BPTTState :=
  let target := oneHotLike (outputs.getD t []) (targets.getD t 0)
  let dy := vSub (outputs.getD t []) target
  let dV := matAdd s.dV (outer dy (hidden_states.getD (t + 1) []))
  let dc := vAdd s.dc dy
  let dh := vAdd (matVec (transpose s.V) dy) s.dh_next
  let dtanh := List.zipWith (fun hi dhi => (1 - hi ^ 2) * dhi)
    (hidden_states.getD (t + 1) []) dh
  let db := vAdd s.db dtanh
  let dU := matAdd s.dU (outer dtanh (inputs.getD t []))
  let dW := matAdd s.dW (outer dtanh (hidden_states.getD t []))
  let dh_next := matVec (transpose s.W) dtanh
  { s with dU := dU, dW := dW, dV := dV, db := db, dc := dc, dh_next := dh_next }

/-- `for t in reversed(range(n))`: processes step `n - 1` first, then
recurses down to step `0`. -/
def bpttAux (inputs outputs hidden_states : List Vec) (targets : List ℕ) :
    ℕ → BPTTState → BPTTState
  | 0, s => s
  | n + 1, s =>
      bpttAux inputs outputs hidden_states targets n
        (bpttStep inputs outputs hidden_states targets n s)

/-- `backward(inputs, outputs, hidden_states, targets, U, W, V, b, c)`
from `Q1.ipynb`: zero-initialises the five gradient accumulators and
`dh_next`, runs the reverse loop over `T = len(inputs)` steps, and
returns `(dU, dW, dV, db, dc)`. -/
def backward (inputs outputs hidden_states : List Vec) (targets : List ℕ)
    (U W V : Mat) (b c : Vec) : Mat × Mat × Mat × Vec × Vec :=
  let s0 : BPTTState :=
    { U := U, W := W, V := V, b := b, c := c,
      dU := zerosLikeM U, dW := zerosLikeM W, dV := zerosLikeM V,
      db := zerosLikeV b, dc := zerosLikeV c,
      dh_next := zerosLikeV (hidden_states.getD 0 []) }
  let s := bpttAux inputs outputs hidden_states targets inputs.length s0
  (s.dU, s.dW, s.dV, s.db, s.dc)

/-- The `1e-8` epsilon of the loss computation, exactly. -/
def eps : ℚ := 1 / 100000000

/-- The loss loop of `train_step`:
`loss = 0; for t in range(len(targets)): loss -= log(outputs[t][targets[t], 0] + 1e-8)`. -/
def lossLoop (log : ℚ → ℚ) (outputs : List Vec) (targets : List ℕ) : ℚ :=
  (List.range targets.length).foldl
    (fun loss t => loss - log ((outputs.getD t []).getD (targets.getD t 0) 0 + eps)) 0

/-- `train_step(inputs, targets, U, W, V, b, c, learning_rate)` from
`Q1.ipynb`: forward pass, backward pass, gradient-descent update of all
five tensors, and the mean negative log-likelihood loss. -/
def train_step (hidden_size : ℕ) (tanh exp log : ℚ → ℚ)
    (inputs : List Vec) (targets : List ℕ) (U W V : Mat) (b c : Vec)
    (learning_rate : ℚ) :
    Except ShapeError (Mat × Mat × Mat × Vec × Vec × ℚ) :=
  match forward hidden_size tanh exp inputs U W V b c with
  | .error e => .error e
  | .ok (outputs, hidden_states) =>
      let g := backward inputs outputs hidden_states targets U W V b c
      let U_new := matSub U (smulMat learning_rate g.1)
      let W_new := matSub W (smulMat learning_rate g.2.1)
      let V_new := matSub V (smulMat learning_rate g.2.2.1)
      let b_new := vSub b (smulVec learning_rate g.2.2.2.1)
      let c_new := vSub c (smulVec learning_rate g.2.2.2.2)
      let loss := lossLoop log outputs targets
      .ok (U_new, W_new, V_new, b_new, c_new, loss / (targets.length : ℚ))

/-! ## Specification-side description of one BPTT step (for the
sum-of-contributions statement), written from the claim's formulas. -/

/-- `dy` at step `t`: `outputs[t] - one_hot(targets[t])`. -/
def dySpec (outputs : List Vec) (targets : List ℕ) (t : ℕ) : Vec :=
  vSub (outputs.getD t []) (oneHotLike (outputs.getD t []) (targets.getD t 0))

/-- `dtanh` at step `t` given the incoming future-hidden-gradient
carrier: `(1 - hidden[t+1]²) ⊙ (Vᵀ·dy + dh_next)`. -/
def dtanhOf (outputs hidden_states : List Vec) (targets : List ℕ) (V : Mat)
    (t : ℕ) (dh_next : Vec) : Vec :=
  List.zipWith (fun hi dhi => (1 - hi ^ 2) * dhi) (hidden_states.getD (t + 1) [])
    (vAdd (matVec (transpose V) (dySpec outputs targets t)) dh_next)

/-- The future-hidden-gradient carrier after the top `k` steps of a
`T`-step BPTT run have been processed (so it is the carrier entering
step `T - 1 - k`): zero for `k = 0`, and `Wᵀ·dtanh` of the step just
processed afterwards. -/
def carrier (T : ℕ) (outputs hidden_states : List Vec) (targets : List ℕ)
    (V W : Mat) : ℕ → Vec
  | 0 => zerosLikeV (hidden_states.getD 0 [])
  | k + 1 =>
      matVec (transpose W)
        (dtanhOf outputs hidden_states targets V (T - 1 - k)
          (carrier T outputs hidden_states targets V W k))

/-- `dtanh` at step `t` of a `T`-step BPTT run, with the carrier cascade
resolved (step `T - 1` sees a zero carrier, step `t` sees
`Wᵀ·dtanh(t+1)`). -/
def dtanhSpec (T : ℕ) (outputs hidden_states : List Vec) (targets : List ℕ)
    (V W : Mat) (t : ℕ) : Vec :=
  dtanhOf outputs hidden_states targets V t
    (carrier T outputs hidden_states targets V W (T - 1 - t))

/-- Sum of a list of vectors on top of an initial accumulator. -/
def sumVecsFrom (z : Vec) (l : List Vec) : Vec := l.foldl vAdd z

/-- Sum of a list of matrices on top of an initial accumulator. -/
def sumMatsFrom (z : Mat) (l : List Mat) : Mat := l.foldl matAdd z

/-! ## Store-passing rendering of the `forward` loop (for the
frame property: the loop body assigns only `hidden_states[t+1]` and
appends to `outputs`; the parameters are only read). -/

/-- The local variables of one `forward` call together with the
parameter tensors it reads. -/
structure FwdState where
  U : Mat
  W : Mat
  V : Mat
  b : Vec
  c : Vec
  hidden_states : List Vec
  outputs : List Vec

/-- The body of `for t in range(T)` in `forward`, acting on the
local-variable state. -/
def forwardStepSt (tanh exp : ℚ → ℚ) (inputs : List Vec) (s : FwdState)
    (t : ℕ) : FwdState :=
  let h' := stepHidden tanh s.U s.W s.b (s.hidden_states.getD t [])
    (inputs.getD t [])
  let y := stepOut exp s.V s.c h'
  { s with hidden_states := s.hidden_states.set (t + 1) h',
           outputs := s.outputs ++ [y] }

/-- The whole `forward` body in store-passing form: preallocate the
`(T+1)`-slot trajectory of zeros, write the zero initial state into
slot `0`, then run the loop. -/
def forwardSt (hidden_size : ℕ) (tanh exp : ℚ → ℚ) (inputs : List Vec)
    (s : FwdState) : FwdState :=
  let T := inputs.length
  let s1 := { s with
    hidden_states := List.replicate (T + 1) (List.replicate hidden_size 0),
    outputs := ([] : List Vec) }
  let s2 := { s1 with
    hidden_states := s1.hidden_states.set 0 (List.replicate hidden_size 0) }
  (List.range T).foldl (forwardStepSt tanh exp inputs) s2

end RNN

namespace CharRNN

/-- `torch.nn.functional.softmax` over the last dimension, with the
`exp` primitive abstracted: `exp(zᵢ) / Σⱼ exp(zⱼ)`. -/
def torchSoftmax (exp : ℚ → ℚ) (z : List ℚ) : List ℚ :=
  let e := z.map exp
  e.map (fun ei => ei / e.sum)

/-- The generation loop of `predict` from `Q3.ipynb`
(`for _ in range(predict_len)`), carrying the current input token and
the hidden state.  `model` abstracts one step of the trained network
(`outputs, hidden = model(input_eval, hidden)` followed by the
`outputs[:, -1, :]` slice, so it returns the logit vector directly);
`multinomial` abstracts one realisation of `torch.multinomial`'s
randomness. -/
def predictLoop {H : Type} (model : ℕ → H → List ℚ × H)
    (multinomial : List ℚ → ℕ) (index_to_char : ℕ → Char) (exp : ℚ → ℚ)
    (temperature : ℚ) : ℕ → ℕ → H → List Char
  | 0, _, _ => []
  | n + 1, input_eval, hidden =>
      let step := model input_eval hidden
      let output_logits := step.1.map (fun z => z / temperature)
      let probabilities := torchSoftmax exp output_logits
      let predicted_index := multinomial probabilities
      index_to_char predicted_index ::
        predictLoop model multinomial index_to_char exp temperature n
          predicted_index step.2

/-- `predict(model, start_char, predict_len, temperature)` from
`Q3.ipynb`: seeds `generated_text` with `start_char`, initialises the
hidden state (`init_hidden`), and samples `predict_len` further
characters autoregressively. -/
def predict {H : Type} (model : ℕ → H → List ℚ × H) (init_hidden : H)
    (multinomial : List ℚ → ℕ) (index_to_char : ℕ → Char)
    (char_to_index : Char → ℕ) (exp : ℚ → ℚ) (start_char : Char)
    (predict_len : ℕ) (temperature : ℚ) : List Char :=
  start_char ::
    predictLoop model multinomial index_to_char exp temperature predict_len
      (char_to_index start_char) init_hidden

end CharRNN

/-! ## Lemmas about the forward pass -/

namespace RNN

theorem getD_map_lt {α β : Type} (f : α → β) (d : β) (d' : α) :
    ∀ (L : List α) (t : ℕ), t < L.length → (L.map f).getD t d = f (L.getD t d')
  | a :: L, 0, _ => rfl
  | a :: L, t + 1, h => by
      simpa using getD_map_lt f d d' L t (by simpa using h)

theorem forwardAux_ok (tanh exp : ℚ → ℚ) (U W V : Mat) (b c : Vec) :
    ∀ (l : List Vec) (h : Vec) (outs hs : List Vec),
      forwardAux tanh exp U W V b c h l = .ok (outs, hs) →
      hs = hiddenList tanh U W b h l ∧
        outs = (hiddenList tanh U W b h l).map (stepOut exp V c) := by
  intro l
  induction l with
  | nil =>
      intro h outs hs he
      simp only [forwardAux, Except.ok.injEq, Prod.mk.injEq] at he
      simp [hiddenList, ← he.1, ← he.2]
  | cons x rest ih =>
      intro h outs hs he
      by_cases hx : x.length = cols U
      · simp only [forwardAux, if_pos hx] at he
        cases hrec : forwardAux tanh exp U W V b c (stepHidden tanh U W b h x) rest with
        | error e => rw [hrec] at he; exact absurd he (by simp)
        | ok p =>
            obtain ⟨o2, hs2⟩ := p
            rw [hrec] at he
            simp only [Except.ok.injEq, Prod.mk.injEq] at he
            obtain ⟨ho, hh⟩ := he
            obtain ⟨h1, h2⟩ := ih (stepHidden tanh U W b h x) o2 hs2 hrec
            subst ho hh
            simp [hiddenList, h1, h2]
      · simp [forwardAux, if_neg hx] at he

theorem hiddenList_length (tanh : ℚ → ℚ) (U W : Mat) (b : Vec) :
    ∀ (l : List Vec) (h : Vec), (hiddenList tanh U W b h l).length = l.length
  | [], _ => rfl
  | x :: rest, h => by
      simp [hiddenList, hiddenList_length tanh U W b rest]

theorem hiddenList_rec (tanh : ℚ → ℚ) (U W : Mat) (b : Vec) :
    ∀ (l : List Vec) (h : Vec) (t : ℕ), t < l.length →
      (h :: hiddenList tanh U W b h l).getD (t + 1) [] =
        stepHidden tanh U W b ((h :: hiddenList tanh U W b h l).getD t [])
          (l.getD t []) := by
  intro l
  induction l with
  | nil => intro h t ht; simp at ht
  | cons x rest ih =>
      intro h t ht
      cases t with
      | zero => simp [hiddenList]
      | succ t =>
          have ht' : t < rest.length := by simpa using ht
          simpa [hiddenList] using ih (stepHidden tanh U W b h x) t ht'

theorem hiddenList_mem (tanh : ℚ → ℚ) (U W : Mat) (b : Vec) :
    ∀ (l : List Vec) (h hv : Vec), hv ∈ hiddenList tanh U W b h l →
      ∃ z : Vec, hv = z.map tanh := by
  intro l
  induction l with
  | nil => intro h hv hm; simp [hiddenList] at hm
  | cons x rest ih =>
      intro h hv hm
      simp only [hiddenList, List.mem_cons] at hm
      rcases hm with hm | hm
      · exact ⟨vAdd (vAdd (matVec U x) (matVec W h)) b, hm⟩
      · exact ih (stepHidden tanh U W b h x) hv hm

theorem softmax_expand (exp : ℚ → ℚ) (z : Vec) :
    softmax exp z =
      z.map (fun zi => exp (zi - maxList z) /
        (z.map (fun zj => exp (zj - maxList z))).sum) := by
  simp [softmax, List.map_map]

theorem sum_map_div (s : ℚ) : ∀ l : List ℚ, (l.map (fun x => x / s)).sum = l.sum / s
  | [] => by simp
  | x :: l => by simp [sum_map_div s l, add_div]

theorem softmax_sum (exp : ℚ → ℚ) (z : Vec) (hexp : ∀ x, 0 < exp x)
    (hz : z ≠ []) : (softmax exp z).sum = 1 := by
  have hpos : 0 < (z.map (fun xi => exp (xi - maxList z))).sum := by
    apply List.sum_pos
    · intro a ha
      obtain ⟨xi, _, rfl⟩ := List.mem_map.1 ha
      exact hexp _
    · simpa using hz
  simp only [softmax]
  rw [sum_map_div]
  exact div_self (ne_of_gt hpos)

end RNN

namespace RNN

theorem forward_ok (hidden_size : ℕ) (tanh exp : ℚ → ℚ) (inputs : List Vec)
    (U W V : Mat) (b c : Vec) (outs tr : List Vec)
    (hok : forward hidden_size tanh exp inputs U W V b c = .ok (outs, tr)) :
    tr = List.replicate hidden_size 0 ::
        hiddenList tanh U W b (List.replicate hidden_size 0) inputs ∧
      outs = (hiddenList tanh U W b (List.replicate hidden_size 0) inputs).map
        (stepOut exp V c) := by
  unfold forward at hok
  cases hrec : forwardAux tanh exp U W V b c (List.replicate hidden_size 0) inputs with
  | error e => rw [hrec] at hok; exact absurd hok (by simp)
  | ok p =>
      obtain ⟨o, hs⟩ := p
      rw [hrec] at hok
      simp only [Except.ok.injEq, Prod.mk.injEq] at hok
      obtain ⟨ho, ht⟩ := hok
      obtain ⟨h1, h2⟩ := forwardAux_ok tanh exp U W V b c inputs
        (List.replicate hidden_size 0) o hs hrec
      subst ho ht
      exact ⟨by rw [h1], h2⟩

/-- **C2.** For every input sequence and parameter set, a successful `forward`
run sets `hidden_trajectory[0]` to the zero vector and satisfies, for every
`t < T` in increasing order,
`hidden_trajectory[t+1] = tanh(U·input[t] + W·hidden_trajectory[t] + b)` and
`outputs[t] = softmax(V·hidden_trajectory[t+1] + c)`, where the softmax
subtracts the vector's maximum entry before exponentiating and divides by the
sum of the exponentials. -/
theorem forward_recurrences (hidden_size : ℕ) (tanh exp : ℚ → ℚ)
    (inputs : List Vec) (U W V : Mat) (b c : Vec) (outs tr : List Vec)
    (hok : forward hidden_size tanh exp inputs U W V b c = .ok (outs, tr)) :
    tr.getD 0 [] = List.replicate hidden_size 0 ∧
    (∀ t, t < inputs.length →
      tr.getD (t + 1) [] =
        (vAdd (vAdd (matVec U (inputs.getD t [])) (matVec W (tr.getD t []))) b).map
          tanh) ∧
    (∀ t, t < inputs.length →
      outs.getD t [] =
        (vAdd (matVec V (tr.getD (t + 1) [])) c).map
          (fun zi => exp (zi - maxList (vAdd (matVec V (tr.getD (t + 1) [])) c)) /
            ((vAdd (matVec V (tr.getD (t + 1) [])) c).map
              (fun zj =>
                exp (zj - maxList (vAdd (matVec V (tr.getD (t + 1) [])) c)))).sum)) := by
  obtain ⟨htr, houts⟩ := forward_ok hidden_size tanh exp inputs U W V b c outs tr hok
  subst htr houts
  refine ⟨rfl, ?_, ?_⟩
  · intro t ht
    exact hiddenList_rec tanh U W b inputs (List.replicate hidden_size 0) t ht
  · intro t ht
    have hlen : t < (hiddenList tanh U W b (List.replicate hidden_size 0) inputs).length := by
      rw [hiddenList_length]; exact ht
    rw [getD_map_lt (stepOut exp V c) [] [] _ t hlen]
    rw [List.getD_cons_succ]
    rw [stepOut, softmax_expand]

/-- **C4.** For every valid input sequence of length `T`, a successful
`forward` run returns exactly `T` output vectors and a hidden trajectory of
exactly `T + 1` vectors, and the entries of each returned output vector sum
to `1` exactly (hence within `1e-6`).  The exponential is positive and the
output dimension is nonzero (`V` nonempty, `c` of matching length). -/
theorem forward_shape_invariants (hidden_size : ℕ) (tanh exp : ℚ → ℚ)
    (inputs : List Vec) (U W V : Mat) (b c : Vec) (outs tr : List Vec)
    (hexp : ∀ x, 0 < exp x) (hV : V ≠ []) (hc : c.length = V.length)
    (hok : forward hidden_size tanh exp inputs U W V b c = .ok (outs, tr)) :
    outs.length = inputs.length ∧ tr.length = inputs.length + 1 ∧
      ∀ o ∈ outs, o.sum = 1 := by
  obtain ⟨htr, houts⟩ := forward_ok hidden_size tanh exp inputs U W V b c outs tr hok
  subst htr houts
  refine ⟨by simp [hiddenList_length], by simp [hiddenList_length], ?_⟩
  intro o ho
  obtain ⟨h', _, rfl⟩ := List.mem_map.1 ho
  apply softmax_sum _ _ hexp
  have hlen : (vAdd (matVec V h') c).length = V.length := by
    simp [vAdd, matVec, hc]
  intro hnil
  rw [hnil] at hlen
  exact hV (List.length_eq_zero.1 hlen.symm)

/-- **C10.** Every component of every hidden-state vector in the trajectory
returned by `forward` lies in `[-1, 1]`: the initial state is all zeros and
each later state is the elementwise image of `tanh`, whose range is `[-1, 1]`. -/
theorem forward_hidden_bounded (hidden_size : ℕ) (tanh exp : ℚ → ℚ)
    (inputs : List Vec) (U W V : Mat) (b c : Vec) (outs tr : List Vec)
    (htanh : ∀ x, -1 ≤ tanh x ∧ tanh x ≤ 1)
    (hok : forward hidden_size tanh exp inputs U W V b c = .ok (outs, tr)) :
    ∀ h ∈ tr, ∀ v ∈ h, -1 ≤ v ∧ v ≤ 1 := by
  obtain ⟨htr, _⟩ := forward_ok hidden_size tanh exp inputs U W V b c outs tr hok
  subst htr
  intro h hmem v hv
  rcases List.mem_cons.1 hmem with hm | hm
  · subst hm
    have := List.eq_of_mem_replicate hv
    subst this
    exact ⟨by norm_num, by norm_num⟩
  · obtain ⟨z, rfl⟩ := hiddenList_mem tanh U W b inputs _ h hm
    obtain ⟨y, _, rfl⟩ := List.mem_map.1 hv
    exact htanh y

theorem forward_eval_example :
    forward 1 (fun _ => 0) (fun _ => 1) [[1]] [[2]] [[3]] [[4]] [0] [0] =
      Except.ok ([[1]], [[0], [0]]) := by
  norm_num [forward, forwardAux, stepHidden, stepOut, softmax, maxList, vAdd,
    matVec, dotRow, cols]

theorem forward_recurrences_witness :
    (([[(0 : ℚ)], [0]] : List Vec).getD 0 []) = List.replicate 1 (0 : ℚ) :=
  (forward_recurrences 1 (fun _ => 0) (fun _ => 1) [[1]] [[2]] [[3]] [[4]]
    [0] [0] [[1]] [[0], [0]] forward_eval_example).1

theorem forward_shape_invariants_witness :
    ([[(0 : ℚ)], [0]] : List Vec).length = ([[(1 : ℚ)]] : List Vec).length + 1 :=
  (forward_shape_invariants 1 (fun _ => 0) (fun _ => 1) [[1]] [[2]] [[3]] [[4]]
    [0] [0] [[1]] [[0], [0]] (fun _ => by norm_num) (by simp) rfl
    forward_eval_example).2.1

theorem forward_hidden_bounded_witness : -1 ≤ (0 : ℚ) ∧ (0 : ℚ) ≤ 1 :=
  forward_hidden_bounded 1 (fun _ => 0) (fun _ => 1) [[1]] [[2]] [[3]] [[4]]
    [0] [0] [[1]] [[0], [0]] (fun _ => by norm_num) forward_eval_example
    [0] (by simp) 0 (by simp)

end RNN

/-! ## Lemmas for the BPTT sum-of-contributions property -/

namespace RNN

theorem foldl_pull {α : Type} (g : α → α → α)
    (hc : ∀ a b, g a b = g b a) (ha : ∀ a b c, g (g a b) c = g a (g b c)) :
    ∀ (l : List α) (z x : α), l.foldl g (g z x) = g (l.foldl g z) x
  | [], _, _ => rfl
  | a :: l, z, x => by
      have h1 : g (g z x) a = g (g z a) x := by rw [ha, hc x a, ← ha]
      simp only [List.foldl_cons, h1]
      exact foldl_pull g hc ha l (g z a) x

theorem foldl_reverse_comm {α : Type} (g : α → α → α)
    (hc : ∀ a b, g a b = g b a) (ha : ∀ a b c, g (g a b) c = g a (g b c)) :
    ∀ (l : List α) (z : α), l.reverse.foldl g z = l.foldl g z
  | [], _ => rfl
  | a :: l, z => by
      simp only [List.reverse_cons, List.foldl_append, List.foldl_cons,
        List.foldl_nil]
      rw [foldl_reverse_comm g hc ha l z]
      exact (foldl_pull g hc ha l z a).symm

theorem zipWith_comm_of (f : ℚ → ℚ → ℚ) (hf : ∀ a b, f a b = f b a) :
    ∀ u v : List ℚ, List.zipWith f u v = List.zipWith f v u
  | [], [] => rfl
  | [], _ :: _ => rfl
  | _ :: _, [] => rfl
  | a :: u, b :: v => by
      simp only [List.zipWith_cons_cons]
      rw [hf, zipWith_comm_of f hf u v]

theorem zipWith_assoc_of {α : Type} (f : α → α → α)
    (hf : ∀ a b c, f (f a b) c = f a (f b c)) :
    ∀ u v w : List α,
      List.zipWith f (List.zipWith f u v) w =
        List.zipWith f u (List.zipWith f v w)
  | [], _, _ => rfl
  | _ :: _, [], _ => rfl
  | _ :: _, _ :: _, [] => rfl
  | a :: u, b :: v, c :: w => by
      simp only [List.zipWith_cons_cons]
      rw [hf, zipWith_assoc_of f hf u v w]

theorem vAdd_comm (u v : Vec) : vAdd u v = vAdd v u :=
  zipWith_comm_of _ (fun a b => add_comm a b) u v

theorem vAdd_assoc (u v w : Vec) : vAdd (vAdd u v) w = vAdd u (vAdd v w) :=
  zipWith_assoc_of _ (fun a b c => add_assoc a b c) u v w

theorem matAdd_comm (A B : Mat) : matAdd A B = matAdd B A := by
  unfold matAdd
  induction A generalizing B with
  | nil => cases B <;> rfl
  | cons a A ih =>
      cases B with
      | nil => rfl
      | cons b B => simp only [List.zipWith_cons_cons]; rw [vAdd_comm, ih]

theorem matAdd_assoc (A B C : Mat) :
    matAdd (matAdd A B) C = matAdd A (matAdd B C) :=
  zipWith_assoc_of _ vAdd_assoc A B C

theorem sumVecsFrom_reverse (z : Vec) (l : List Vec) :
    sumVecsFrom z l.reverse = sumVecsFrom z l :=
  foldl_reverse_comm vAdd vAdd_comm vAdd_assoc l z

theorem sumMatsFrom_reverse (z : Mat) (l : List Mat) :
    sumMatsFrom z l.reverse = sumMatsFrom z l :=
  foldl_reverse_comm matAdd matAdd_comm matAdd_assoc l z

/-! Field equations of one BPTT loop-body application, read off `bpttStep`. -/

theorem bpttStep_U (i o h : List Vec) (tg : List ℕ) (t : ℕ) (s : BPTTState) :
    (bpttStep i o h tg t s).U = s.U := rfl

theorem bpttStep_dU (i o h : List Vec) (tg : List ℕ) (t : ℕ) (s : BPTTState) :
    (bpttStep i o h tg t s).dU =
      matAdd s.dU (outer (dtanhOf o h tg s.V t s.dh_next) (i.getD t [])) := rfl

theorem bpttStep_dW (i o h : List Vec) (tg : List ℕ) (t : ℕ) (s : BPTTState) :
    (bpttStep i o h tg t s).dW =
      matAdd s.dW (outer (dtanhOf o h tg s.V t s.dh_next) (h.getD t [])) := rfl

theorem bpttStep_dV (i o h : List Vec) (tg : List ℕ) (t : ℕ) (s : BPTTState) :
    (bpttStep i o h tg t s).dV =
      matAdd s.dV (outer (dySpec o tg t) (h.getD (t + 1) [])) := rfl

theorem bpttStep_db (i o h : List Vec) (tg : List ℕ) (t : ℕ) (s : BPTTState) :
    (bpttStep i o h tg t s).db = vAdd s.db (dtanhOf o h tg s.V t s.dh_next) := rfl

theorem bpttStep_dc (i o h : List Vec) (tg : List ℕ) (t : ℕ) (s : BPTTState) :
    (bpttStep i o h tg t s).dc = vAdd s.dc (dySpec o tg t) := rfl

theorem bpttStep_dh_next (i o h : List Vec) (tg : List ℕ) (t : ℕ) (s : BPTTState) :
    (bpttStep i o h tg t s).dh_next =
      matVec (transpose s.W) (dtanhOf o h tg s.V t s.dh_next) := rfl

theorem carrier_succ (outputs hidden_states : List Vec) (targets : List ℕ)
    (V W : Mat) (T n : ℕ) (hn : n < T) :
    carrier T outputs hidden_states targets V W (T - n) =
      matVec (transpose W)
        (dtanhOf outputs hidden_states targets V n
          (carrier T outputs hidden_states targets V W (T - (n + 1)))) := by
  have h1 : T - n = (T - (n + 1)) + 1 := by omega
  rw [h1]
  simp only [carrier]
  have h2 : T - 1 - (T - (n + 1)) = n := by omega
  rw [h2]

theorem dtanhSpec_eq (outputs hidden_states : List Vec) (targets : List ℕ)
    (V W : Mat) (T n : ℕ) :
    dtanhSpec T outputs hidden_states targets V W n =
      dtanhOf outputs hidden_states targets V n
        (carrier T outputs hidden_states targets V W (T - (n + 1))) := by
  unfold dtanhSpec
  rw [show T - 1 - n = T - (n + 1) from by omega]

theorem bpttAux_spec (inputs outputs hidden_states : List Vec)
    (targets : List ℕ) (V W : Mat) (T : ℕ) :
    ∀ n, n ≤ T → ∀ s : BPTTState, s.V = V → s.W = W →
      s.dh_next = carrier T outputs hidden_states targets V W (T - n) →
      (bpttAux inputs outputs hidden_states targets n s).dU =
          sumMatsFrom s.dU ((List.range n).reverse.map
            (fun t => outer (dtanhSpec T outputs hidden_states targets V W t)
              (inputs.getD t []))) ∧
      (bpttAux inputs outputs hidden_states targets n s).dW =
          sumMatsFrom s.dW ((List.range n).reverse.map
            (fun t => outer (dtanhSpec T outputs hidden_states targets V W t)
              (hidden_states.getD t []))) ∧
      (bpttAux inputs outputs hidden_states targets n s).dV =
          sumMatsFrom s.dV ((List.range n).reverse.map
            (fun t => outer (dySpec outputs targets t)
              (hidden_states.getD (t + 1) []))) ∧
      (bpttAux inputs outputs hidden_states targets n s).db =
          sumVecsFrom s.db ((List.range n).reverse.map
            (dtanhSpec T outputs hidden_states targets V W)) ∧
      (bpttAux inputs outputs hidden_states targets n s).dc =
          sumVecsFrom s.dc ((List.range n).reverse.map (dySpec outputs targets)) := by
  intro n
  induction n with
  | zero =>
      intro _ s _ _ _
      simp only [bpttAux, List.range_zero, List.reverse_nil, List.map_nil]
      exact ⟨rfl, rfl, rfl, rfl, rfl⟩
  | succ n ih =>
      intro hn s hV hW hdh
      have hnT : n < T := hn
      have hV' : (bpttStep inputs outputs hidden_states targets n s).V = V := hV
      have hW' : (bpttStep inputs outputs hidden_states targets n s).W = W := hW
      have hdt : dtanhOf outputs hidden_states targets s.V n s.dh_next =
          dtanhSpec T outputs hidden_states targets V W n := by
        rw [hV, hdh, dtanhSpec_eq]
      have hdh' : (bpttStep inputs outputs hidden_states targets n s).dh_next =
          carrier T outputs hidden_states targets V W (T - n) := by
        rw [bpttStep_dh_next, hW, hdt, carrier_succ _ _ _ _ _ _ _ hnT,
          dtanhSpec_eq]
      obtain ⟨ihU, ihW, ihV, ihb, ihc⟩ :=
        ih (Nat.le_of_succ_le hn)
          (bpttStep inputs outputs hidden_states targets n s) hV' hW' hdh'
      have hr : (List.range (n + 1)).reverse = n :: (List.range n).reverse := by
        simp [List.range_succ]
      simp only [bpttAux]
      refine ⟨?_, ?_, ?_, ?_, ?_⟩
      · rw [ihU, bpttStep_dU, hdt, hr, List.map_cons]; rfl
      · rw [ihW, bpttStep_dW, hdt, hr, List.map_cons]; rfl
      · rw [ihV, bpttStep_dV, hr, List.map_cons]; rfl
      · rw [ihb, bpttStep_db, hdt, hr, List.map_cons]; rfl
      · rw [ihc, bpttStep_dc, hr, List.map_cons]; rfl

end RNN

namespace RNN

/-- **C1.** For matching forward-pass artifacts (`T ≥ 1` inputs, `T` outputs,
`T + 1` hidden states, `T` in-range targets), `backward` — which
zero-initialises the five gradient accumulators and the future-hidden-gradient
carrier and iterates `t` from `T-1` down to `0`, at each step forming
`dy = outputs[t] - one_hot(targets[t])`, adding `dy ⊗ hidden[t+1]` to `dV` and
`dy` to `dc`, forming `dh = Vᵀ·dy + dh_next` and
`dtanh = (1 - hidden[t+1]²) ⊙ dh`, adding `dtanh` to `db`,
`dtanh ⊗ inputs[t]` to `dU`, `dtanh ⊗ hidden[t]` to `dW`, and setting
`dh_next = Wᵀ·dtanh` — returns exactly the sums over all `T` steps of these
per-step contributions (`dySpec`/`dtanhSpec` resolve the carrier cascade). -/
theorem backward_sums (inputs outputs hidden_states : List Vec)
    (targets : List ℕ) (U W V : Mat) (b c : Vec)
    (hT : 1 ≤ inputs.length) (hout : outputs.length = inputs.length)
    (hhid : hidden_states.length = inputs.length + 1)
    (htar : targets.length = inputs.length)
    (hrange : ∀ t, t < inputs.length →
      targets.getD t 0 < (outputs.getD t []).length) :
    backward inputs outputs hidden_states targets U W V b c =
      ( sumMatsFrom (zerosLikeM U) ((List.range inputs.length).map
          (fun t => outer
            (dtanhSpec inputs.length outputs hidden_states targets V W t)
            (inputs.getD t []))),
        sumMatsFrom (zerosLikeM W) ((List.range inputs.length).map
          (fun t => outer
            (dtanhSpec inputs.length outputs hidden_states targets V W t)
            (hidden_states.getD t []))),
        sumMatsFrom (zerosLikeM V) ((List.range inputs.length).map
          (fun t => outer (dySpec outputs targets t)
            (hidden_states.getD (t + 1) []))),
        sumVecsFrom (zerosLikeV b) ((List.range inputs.length).map
          (dtanhSpec inputs.length outputs hidden_states targets V W)),
        sumVecsFrom (zerosLikeV c) ((List.range inputs.length).map
          (dySpec outputs targets)) ) := by
  have h0 : (BPTTState.mk U W V b c (zerosLikeM U) (zerosLikeM W)
      (zerosLikeM V) (zerosLikeV b) (zerosLikeV c)
      (zerosLikeV (hidden_states.getD 0 []))).dh_next =
      carrier inputs.length outputs hidden_states targets V W
        (inputs.length - inputs.length) := by
    rw [Nat.sub_self]
    rfl
  obtain ⟨hU, hW2, hV2, hb2, hc2⟩ :=
    bpttAux_spec inputs outputs hidden_states targets V W inputs.length
      inputs.length le_rfl
      (BPTTState.mk U W V b c (zerosLikeM U) (zerosLikeM W) (zerosLikeM V)
        (zerosLikeV b) (zerosLikeV c) (zerosLikeV (hidden_states.getD 0 [])))
      rfl rfl h0
  have hmapr : ∀ {α : Type} (f : ℕ → α) (n : ℕ),
      (List.range n).reverse.map f = ((List.range n).map f).reverse :=
    fun f n => by rw [List.map_reverse]
  simp only [backward, Prod.mk.injEq]
  refine ⟨?_, ?_, ?_, ?_, ?_⟩
  · rw [hU, hmapr, sumMatsFrom_reverse]
  · rw [hW2, hmapr, sumMatsFrom_reverse]
  · rw [hV2, hmapr, sumMatsFrom_reverse]
  · rw [hb2, hmapr, sumVecsFrom_reverse]
  · rw [hc2, hmapr, sumVecsFrom_reverse]

theorem backward_sums_witness :
    (backward [[1]] [[1]] [[0], [0]] [0] [[2]] [[3]] [[4]] [0] [0]).2.2.2.2 =
      sumVecsFrom (zerosLikeV [0])
        ((List.range ([[(1 : ℚ)]] : List Vec).length).map (dySpec [[1]] [0])) :=
  congrArg (fun p => p.2.2.2.2)
    (backward_sums [[1]] [[1]] [[0], [0]] [0] [[2]] [[3]] [[4]] [0] [0]
      (by norm_num) rfl rfl rfl
      (by
        intro t ht
        simp only [List.length_cons, List.length_nil] at ht
        have ht0 : t = 0 := by omega
        subst ht0
        simp))

end RNN

namespace RNN

theorem foldl_sub_eq (f : ℕ → ℚ) :
    ∀ (l : List ℕ) (a : ℚ),
      l.foldl (fun acc t => acc - f t) a = a - (l.map f).sum
  | [], a => by simp
  | x :: l, a => by
      simp only [List.foldl_cons, List.map_cons, List.sum_cons]
      rw [foldl_sub_eq f l (a - f x)]
      ring

theorem lossLoop_eq (log : ℚ → ℚ) (outputs : List Vec) (targets : List ℕ) :
    lossLoop log outputs targets =
      -(((List.range targets.length).map
        (fun t => log ((outputs.getD t []).getD (targets.getD t 0) 0 + eps))).sum) := by
  unfold lossLoop
  rw [foldl_sub_eq]
  ring

/-- **C3.** For a sequence/target pair with `T ≥ 1` steps, `train_step`
returns the tuple whose parameter components are each original tensor minus
`learning_rate` times its BPTT gradient, and whose loss component is
`-(1/T)·Σ_t log(outputs[t][targets[t]] + 1e-8)` computed from the outputs of
the paired (pre-update) forward pass. -/
theorem train_step_spec (hidden_size : ℕ) (tanh exp log : ℚ → ℚ)
    (inputs : List Vec) (targets : List ℕ) (U W V : Mat) (b c : Vec)
    (learning_rate : ℚ) (outputs hidden_states : List Vec)
    (hT : 1 ≤ inputs.length) (hlen : targets.length = inputs.length)
    (hf : forward hidden_size tanh exp inputs U W V b c =
      .ok (outputs, hidden_states)) :
    train_step hidden_size tanh exp log inputs targets U W V b c learning_rate =
      .ok
        ( matSub U (smulMat learning_rate
            (backward inputs outputs hidden_states targets U W V b c).1),
          matSub W (smulMat learning_rate
            (backward inputs outputs hidden_states targets U W V b c).2.1),
          matSub V (smulMat learning_rate
            (backward inputs outputs hidden_states targets U W V b c).2.2.1),
          vSub b (smulVec learning_rate
            (backward inputs outputs hidden_states targets U W V b c).2.2.2.1),
          vSub c (smulVec learning_rate
            (backward inputs outputs hidden_states targets U W V b c).2.2.2.2),
          -(1 / (inputs.length : ℚ)) * ((List.range inputs.length).map
            (fun t =>
              log ((outputs.getD t []).getD (targets.getD t 0) 0 + eps))).sum ) := by
  unfold train_step
  rw [hf]
  simp only [Except.ok.injEq, Prod.mk.injEq]
  refine ⟨trivial, trivial, trivial, trivial, trivial, ?_⟩
  rw [lossLoop_eq, hlen]
  ring

theorem train_step_spec_witness :
    (train_step 1 (fun _ => 0) (fun _ => 1) (fun _ => 5) [[1]] [0] [[2]] [[3]]
      [[4]] [0] [0] 1).isOk = true := by
  rw [train_step_spec 1 (fun _ => 0) (fun _ => 1) (fun _ => 5) [[1]] [0] [[2]]
    [[3]] [[4]] [0] [0] 1 [[1]] [[0], [0]] (by simp) rfl forward_eval_example]
  rfl

end RNN

namespace RNN

theorem bpttAux_params (i o h : List Vec) (tg : List ℕ) :
    ∀ (n : ℕ) (s : BPTTState),
      (bpttAux i o h tg n s).U = s.U ∧ (bpttAux i o h tg n s).W = s.W ∧
        (bpttAux i o h tg n s).V = s.V ∧ (bpttAux i o h tg n s).b = s.b ∧
        (bpttAux i o h tg n s).c = s.c
  | 0, _ => ⟨rfl, rfl, rfl, rfl, rfl⟩
  | n + 1, s => bpttAux_params i o h tg n (bpttStep i o h tg n s)

theorem foldl_forwardStepSt_params (tanh exp : ℚ → ℚ) (inputs : List Vec) :
    ∀ (l : List ℕ) (s : FwdState),
      (l.foldl (forwardStepSt tanh exp inputs) s).U = s.U ∧
        (l.foldl (forwardStepSt tanh exp inputs) s).W = s.W ∧
        (l.foldl (forwardStepSt tanh exp inputs) s).V = s.V ∧
        (l.foldl (forwardStepSt tanh exp inputs) s).b = s.b ∧
        (l.foldl (forwardStepSt tanh exp inputs) s).c = s.c
  | [], _ => ⟨rfl, rfl, rfl, rfl, rfl⟩
  | t :: l, s =>
      foldl_forwardStepSt_params tanh exp inputs l (forwardStepSt tanh exp inputs s t)

/-- **C7.** Neither the `forward` loop nor the `backward` loop ever assigns to
a parameter tensor: running the store-passing rendering of the `forward` body
(`forwardSt`, which performs all the assignments of the source loop) or the
full `backward` loop (`bpttAux`, for any step count, in particular the
`T`-step run performed by `backward`) leaves the five parameter fields
`U, W, V, b, c` of the store exactly as they were before the call; only
`train_step`'s update rule produces new parameter values. -/
theorem forward_backward_params_unchanged (hidden_size : ℕ)
    (tanh exp : ℚ → ℚ) (inputs outputs hidden_states : List Vec)
    (targets : List ℕ) (n : ℕ) (sF : FwdState) (sB : BPTTState) :
    ((forwardSt hidden_size tanh exp inputs sF).U = sF.U ∧
      (forwardSt hidden_size tanh exp inputs sF).W = sF.W ∧
      (forwardSt hidden_size tanh exp inputs sF).V = sF.V ∧
      (forwardSt hidden_size tanh exp inputs sF).b = sF.b ∧
      (forwardSt hidden_size tanh exp inputs sF).c = sF.c) ∧
    ((bpttAux inputs outputs hidden_states targets n sB).U = sB.U ∧
      (bpttAux inputs outputs hidden_states targets n sB).W = sB.W ∧
      (bpttAux inputs outputs hidden_states targets n sB).V = sB.V ∧
      (bpttAux inputs outputs hidden_states targets n sB).b = sB.b ∧
      (bpttAux inputs outputs hidden_states targets n sB).c = sB.c) :=
  ⟨foldl_forwardStepSt_params tanh exp inputs (List.range inputs.length) _,
    bpttAux_params inputs outputs hidden_states targets n sB⟩

end RNN

namespace RNN

theorem forwardAux_error_of_bad (tanh exp : ℚ → ℚ) (U W V : Mat) (b c : Vec) :
    ∀ (l : List Vec) (h : Vec), (∃ x ∈ l, x.length ≠ cols U) →
      ∃ e, forwardAux tanh exp U W V b c h l = .error e := by
  intro l
  induction l with
  | nil => intro h hbad; simp at hbad
  | cons x rest ih =>
      intro h hbad
      by_cases hx : x.length = cols U
      · have hrest : ∃ x' ∈ rest, x'.length ≠ cols U := by
          obtain ⟨x', hmem, hne⟩ := hbad
          rcases List.mem_cons.1 hmem with rfl | hmem'
          · exact absurd hx hne
          · exact ⟨x', hmem', hne⟩
        obtain ⟨e, he⟩ := ih (stepHidden tanh U W b h x) hrest
        refine ⟨e, ?_⟩
        simp only [forwardAux, if_pos hx, he]
      · exact ⟨.dimMismatch x.length (cols U), by simp [forwardAux, if_neg hx]⟩

/-- **C6.** For every parameter set and every input sequence containing some
vector whose length differs from `input_dim` (the column count of the
input-to-hidden matrix `U`, which is what NumPy's `np.dot(U, inputs[t])`
checks), `forward` fails with a `ShapeError` instead of returning a result. -/
theorem forward_shape_error (hidden_size : ℕ) (tanh exp : ℚ → ℚ)
    (inputs : List Vec) (U W V : Mat) (b c : Vec)
    (hbad : ∃ x ∈ inputs, x.length ≠ cols U) :
    ∃ e, forward hidden_size tanh exp inputs U W V b c = .error e := by
  obtain ⟨e, he⟩ := forwardAux_error_of_bad tanh exp U W V b c inputs
    (List.replicate hidden_size 0) hbad
  exact ⟨e, by simp only [forward, he]⟩

theorem forward_shape_error_witness :
    ∃ e, forward 1 (fun _ => 0) (fun _ => 1) [[1, 2]] [[2]] [[3]] [[4]] [0] [0] =
      .error e :=
  forward_shape_error 1 (fun _ => 0) (fun _ => 1) [[1, 2]] [[2]] [[3]] [[4]]
    [0] [0] ⟨[1, 2], by simp, by simp [cols]⟩

/-- **C5 (counterexample).** The code contains no zero-length check at all: on
an empty input sequence `forward` returns a normal result (an empty output
list and the trajectory holding only the zero initial state), and `backward`
returns a normal all-zero gradient tuple — contradicting the claim that both
raise a `ShapeError` and that neither returns a normal result for `T = 0`. -/
theorem empty_sequence_counterexample :
    forward 1 (fun _ => 0) (fun _ => 1) [] [[2]] [[3]] [[4]] [0] [0] =
        Except.ok ([], [[0]]) ∧
      backward [] [] [[0]] [] [[2]] [[3]] [[4]] [0] [0] =
        ([[0]], [[0]], [[0]], [0], [0]) :=
  ⟨rfl, rfl⟩

/-- **C5 (amended).** Called on a 0-length input sequence, `forward` returns
normally with an empty outputs list and a one-element trajectory holding the
zero initial hidden state, and `backward` on a 0-length sequence returns
normally with all five gradient accumulators still zero; no `ShapeError` is
raised for `T = 0`. -/
theorem empty_sequence_behavior (hidden_size : ℕ) (tanh exp : ℚ → ℚ)
    (outputs hidden_states : List Vec) (targets : List ℕ)
    (U W V : Mat) (b c : Vec) :
    forward hidden_size tanh exp [] U W V b c =
        .ok ([], [List.replicate hidden_size 0]) ∧
      backward [] outputs hidden_states targets U W V b c =
        (zerosLikeM U, zerosLikeM W, zerosLikeM V, zerosLikeV b, zerosLikeV c) :=
  ⟨rfl, rfl⟩

end RNN

namespace CharRNN

theorem predictLoop_length {H : Type} (model : ℕ → H → List ℚ × H)
    (multinomial : List ℚ → ℕ) (index_to_char : ℕ → Char) (exp : ℚ → ℚ)
    (temperature : ℚ) :
    ∀ (n : ℕ) (i : ℕ) (h : H),
      (predictLoop model multinomial index_to_char exp temperature n i h).length =
        n
  | 0, _, _ => rfl
  | n + 1, i, h => by
      simp only [predictLoop, List.length_cons]
      rw [predictLoop_length model multinomial index_to_char exp temperature n]

/-- **C8 (counterexample).** With requested length `1`, the generated sequence
has `2` elements (the seed plus one sampled token), so the generator does not
produce exactly `length` tokens in total as the claim states. -/
theorem predict_length_counterexample :
    (predict (fun _ _ => ([1], ())) () (fun _ => 0) (fun _ => 'a')
      (fun _ => 0) (fun _ => 1) 'a' 1 1).length ≠ 1 := by
  simp [predict, predictLoop]

/-- **C8 (amended).** For every model, seed token, requested length `≥ 1` and
temperature `> 0`, the generator terminates after exactly `predict_len`
sampling steps and produces exactly `predict_len + 1` tokens — the seed token
first, followed by the `predict_len` sampled tokens — never an infinite or
longer sequence. -/
theorem predict_length {H : Type} (model : ℕ → H → List ℚ × H)
    (init_hidden : H) (multinomial : List ℚ → ℕ) (index_to_char : ℕ → Char)
    (char_to_index : Char → ℕ) (exp : ℚ → ℚ) (start_char : Char)
    (predict_len : ℕ) (temperature : ℚ)
    (hlen : 1 ≤ predict_len) (htemp : 0 < temperature) :
    (predict model init_hidden multinomial index_to_char char_to_index exp
        start_char predict_len temperature).length = predict_len + 1 ∧
      (predict model init_hidden multinomial index_to_char char_to_index exp
        start_char predict_len temperature).head? = some start_char := by
  constructor
  · simp [predict, predictLoop_length]
  · rfl

theorem predict_length_witness :
    (predict (fun _ _ => (([1] : List ℚ), ())) () (fun _ => 0) (fun _ => 'a')
      (fun _ => 0) (fun _ => 1) 'b' 1 1).head? = some 'b' :=
  (predict_length (fun _ _ => (([1] : List ℚ), ())) () (fun _ => 0)
    (fun _ => 'a') (fun _ => 0) (fun _ => 1) 'b' 1 1 (by norm_num)
    (by norm_num)).2

/-- **C9 (counterexample).** Called with requested length `0` (a non-positive
length), the generator does not reject the call: it runs and returns the
one-element sequence holding just the seed token — there is no
`ConfigurationError` check before computation begins. -/
theorem predict_zero_length_counterexample :
    predict (fun _ _ => (([1] : List ℚ), ())) () (fun _ => 0) (fun _ => 'a')
      (fun _ => 0) (fun _ => 1) 'a' 0 1 = ['a'] := rfl

/-- **C9 (amended).** The generator performs no configuration validation: a
requested length of `0` is accepted and yields just the seed token, and for
every temperature value (including zero and negative ones, which are never
rejected up front in the code) generation runs to completion, producing
`len + 1` tokens for every requested length `len`. -/
theorem predict_no_validation {H : Type} (model : ℕ → H → List ℚ × H)
    (init_hidden : H) (multinomial : List ℚ → ℕ) (index_to_char : ℕ → Char)
    (char_to_index : Char → ℕ) (exp : ℚ → ℚ) (start_char : Char)
    (temperature : ℚ) :
    predict model init_hidden multinomial index_to_char char_to_index exp
        start_char 0 temperature = [start_char] ∧
      ∀ len : ℕ,
        (predict model init_hidden multinomial index_to_char char_to_index exp
          start_char len temperature).length = len + 1 :=
  ⟨rfl, fun len => by simp [predict, predictLoop_length]⟩

end CharRNN
